import Mathlib

/-!
# Verification of brew-buddy: ingest-reconcile-retrieve pipeline

Shallow embedding of the core of the `brew-buddy` repository (Go):

* `internal/ai/ai.go` — vector (de)serialisation and cosine similarity;
* `internal/db` — the reconciliation store (`MarkAllAsInactive`, `SaveData`,
  `GetUnembeddedCoffees`, search-history cache);
* `internal/scraper` — `parseHTML`, the selector-driven extractor;
* `internal/searcher` — `Perform` / `getQueryVector`, the cache-aside search.

Machine floats appear only through their 32-bit patterns (serialisation is
bit-level in the source), or through abstract parameters where only control
flow and ordering matter.  SQL state is modelled as an explicit list of rows.
-/

namespace BrewBuddy

/-! ## Vector encoding (`internal/ai/ai.go`)

A `float32` is represented by its 32-bit IEEE-754 bit pattern, a `Nat`
below `2^32`; `binary.Write`/`binary.Read` with `binary.LittleEndian`
move exactly those bit patterns, four bytes per float, least significant
byte first.  Bytes are `Nat` below `256`. -/

/-- `FloatsToBytes` (ai.go): serialise each 32-bit pattern to four
little-endian bytes, concatenated, no header or length prefix.
(`binary.Write` to a `bytes.Buffer` cannot fail for a `[]float32`.) -/
def floatsToBytes : List Nat → List Nat
  | [] => []
  | w :: ws =>
      w % 256 :: (w / 256) % 256 :: (w / 65536) % 256 :: (w / 16777216) % 256 ::
        floatsToBytes ws

/-- Inner decoding loop of `BytesToFloats`: rebuild one 32-bit pattern from
each group of four little-endian bytes. -/
def bytesToFloatsAux : List Nat → List Nat
  | b0 :: b1 :: b2 :: b3 :: rest =>
      (b0 + 256 * b1 + 65536 * b2 + 16777216 * b3) :: bytesToFloatsAux rest
  | _ => []

/-- `BytesToFloats` (ai.go): reject a byte slice whose length is not a
multiple of 4, otherwise decode groups of four bytes little-endian. -/
def bytesToFloats (b : List Nat) : Except String (List Nat) :=
  if b.length % 4 ≠ 0 then .error "invalid byte length for float32 slice"
  else .ok (bytesToFloatsAux b)

/-! ## Cosine similarity (`internal/ai/ai.go`)

`CosineSimilarity` accumulates a dot product and the two squared
magnitudes, guards against mismatched lengths and zero magnitudes, and
only then divides by the product of the square roots.  Arithmetic is
modelled over `ℚ`; the square root (`math.Sqrt` composed with the
`float32`/`float64` casts) is an abstract parameter `sqrtF`, since every
claim about this function concerns its guards, not rounding. -/

/-- Dot product accumulated over the common indices (`dotProduct` in the
source loop). -/
def dotList : List ℚ → List ℚ → ℚ
  | a :: as, b :: bs => a * b + dotList as bs
  | _, _ => 0

/-- Squared magnitude (`magA`/`magB` in the source loop). -/
def sumSquares (v : List ℚ) : ℚ := dotList v v

/-- `CosineSimilarity` (ai.go): returns 0 on mismatched lengths, on empty
input, and when either squared magnitude is zero; otherwise divides the dot
product by the product of the square roots of the magnitudes. -/
def cosineSimilarity (sqrtF : ℚ → ℚ) (a b : List ℚ) : ℚ :=
  if a.length ≠ b.length ∨ a.length = 0 then 0
  else
    let dot := dotList a b
    let magA := sumSquares a
    let magB := sumSquares b
    if magA = 0 ∨ magB = 0 then 0
    else dot / (sqrtF magA * sqrtF magB)

/-! ## Data model (`internal/models`, `internal/db` schema)

Timestamps are abstract instants (`Nat`); each call that executes
`CURRENT_TIMESTAMP` receives the current instant as a parameter.  Go
`float64` values carried opaquely (price, score) are modelled as `ℚ`:
the store only moves them, and the single comparison `item.Score > 0`
is exact in both representations. -/

/-- `models.CoffeeItem`: one scraped draft. -/
structure CoffeeItem where
  url : String
  name : String
  price : ℚ
  score : ℚ
  origin : String
  region : String
  tastingNotes : String
  processing : String
  description : String
  stockStatus : String
deriving DecidableEq

/-- One row of the `coffee` table.  Columns that `SaveData` can set to SQL
`NULL` are `Option`s; `url`, `name` and `price` are always bound to non-NULL
values by `SaveData`, the table's only writer.  `descriptionEmbedding` is the
BLOB column, absent until the embedder fills it. -/
structure CoffeeRow where
  url : String
  name : String
  price : ℚ
  score : Option ℚ
  origin : Option String
  region : Option String
  tastingNotes : Option String
  processing : Option String
  description : Option String
  stockStatus : Option String
  firstScrapedAt : Nat
  lastScrapedAt : Nat
  lastSeenAt : Nat
  isActive : Bool
  descriptionEmbedding : Option (List Nat)
deriving DecidableEq

/-- `MarkAllAsInactive` (db.go): `UPDATE coffee SET is_active = 0 WHERE
is_active = 1`. -/
def markAllAsInactive (s : List CoffeeRow) : List CoffeeRow :=
  s.map fun r => if r.isActive then { r with isActive := false } else r

/-- `sql.NullString\x7bString: s, Valid: s != ""\x7d`: empty strings are bound
as SQL `NULL`. -/
def nullStr (s : String) : Option String := if s = "" then none else some s

/-- `sql.NullFloat64\x7bFloat64: q, Valid: q > 0\x7d`: a non-positive score is
bound as SQL `NULL`. -/
def nullScore (q : ℚ) : Option ℚ := if 0 < q then some q else none

/-- The `ON CONFLICT(url) DO UPDATE SET ...` arm of the upsert in `SaveData`:
every mutable field is overwritten from `excluded`, `last_scraped_at` and
`last_seen_at` are refreshed, `is_active` is set to 1; `first_scraped_at` and
`description_embedding` are not in the SET list, hence untouched. -/
def updateRow (now : Nat) (item : CoffeeItem) (r : CoffeeRow) : CoffeeRow :=
  { r with
    name := item.name
    price := item.price
    score := nullScore item.score
    origin := nullStr item.origin
    region := nullStr item.region
    tastingNotes := nullStr item.tastingNotes
    processing := nullStr item.processing
    description := nullStr item.description
    stockStatus := nullStr item.stockStatus
    lastScrapedAt := now
    lastSeenAt := now
    isActive := true }

/-- The `INSERT INTO coffee (...) VALUES (...)` arm: `first_scraped_at` takes
its column default `CURRENT_TIMESTAMP` and `description_embedding` its
default `NULL`, neither being in the column list. -/
def insertRow (now : Nat) (item : CoffeeItem) : CoffeeRow :=
  { url := item.url
    name := item.name
    price := item.price
    score := nullScore item.score
    origin := nullStr item.origin
    region := nullStr item.region
    tastingNotes := nullStr item.tastingNotes
    processing := nullStr item.processing
    description := nullStr item.description
    stockStatus := nullStr item.stockStatus
    firstScrapedAt := now
    lastScrapedAt := now
    lastSeenAt := now
    isActive := true
    descriptionEmbedding := none }

/-- One execution of the prepared upsert statement: SQLite updates the
(unique) conflicting row when `url` is already present, otherwise inserts. -/
def upsertOne (now : Nat) (item : CoffeeItem) (s : List CoffeeRow) : List CoffeeRow :=
  if s.any fun r => r.url == item.url then
    s.map fun r => if r.url == item.url then updateRow now item r else r
  else s ++ [insertRow now item]

/-- Sequential application of the upsert statement to a batch, in order. -/
def upsertAll (now : Nat) (items : List CoffeeItem) (s : List CoffeeRow) : List CoffeeRow :=
  items.foldl (fun st it => upsertOne now it st) s

/-- The statement loop inside the `SaveData` transaction: each draft runs the
upsert (one row affected each), the first failing `ExecContext` aborts with
`failed to upsert <url>`.  `fails` abstracts whether the SQL layer errors for
a given draft. -/
def saveDataLoop (fails : CoffeeItem → Bool) (now : Nat) :
    List CoffeeItem → List CoffeeRow → Int → Except String (List CoffeeRow × Int)
  | [], st, cnt => .ok (st, cnt)
  | it :: rest, st, cnt =>
      if fails it then .error ("failed to upsert " ++ it.url)
      else saveDataLoop fails now rest (upsertOne now it st) (cnt + 1)

/-- `SaveData` (db.go): the whole batch runs in one transaction (`BeginTx`).
On any statement failure `tx.Rollback()` discards every change — the store is
left exactly as before — and the error is returned; only a full pass commits.
Returns the new store state and the `(int64, error)` result. -/
def saveData (fails : CoffeeItem → Bool) (now : Nat) (items : List CoffeeItem)
    (s : List CoffeeRow) : List CoffeeRow × Except String Int :=
  match saveDataLoop fails now items s 0 with
  | .ok (st, cnt) => (st, .ok cnt)
  | .error e => (s, .error e)

/-- One completed ingest run (`runScrape` steps 3 and 5): `MarkAllAsInactive`
followed by a successful `SaveData` of the sweep's drafts. -/
def ingestRun (now : Nat) (items : List CoffeeItem) (s : List CoffeeRow) : List CoffeeRow :=
  (saveData (fun _ => false) now items (markAllAsInactive s)).1

/-- `SELECT ... WHERE url = ?` row lookup (the `url` column is UNIQUE). -/
def findRow (u : String) (s : List CoffeeRow) : Option CoffeeRow :=
  s.find? fun r => r.url == u

/-- `GetUnembeddedCoffees` (db.go): `SELECT url, name, description FROM
coffee WHERE is_active = 1 AND description_embedding IS NULL`, scanning into
Go `string`s.  A row whose `description` column is SQL `NULL` makes
`rows.Scan` fail (converting NULL to string is unsupported) and the
`if err == nil` guard silently drops that row; `name` is never NULL in rows
written by `SaveData`.  A surviving row maps its URL to
`fmt.Sprintf("Coffee Name: %s\nDescription: %s", name, desc)`. -/
def getUnembeddedCoffees (s : List CoffeeRow) : List (String × String) :=
  (s.filter fun r => r.isActive && r.descriptionEmbedding.isNone).filterMap
    fun r =>
      match r.description with
      | some d => some (r.url, "Coffee Name: " ++ r.name ++ "\nDescription: " ++ d)
      | none => none

/-! ## Search-history cache and cache-aside query resolution
(`internal/db`, `internal/searcher`)

The `search_history` table is an association list keyed by `query_text`
(a `TEXT PRIMARY KEY`; SQLite's default BINARY collation makes the
`WHERE query_text = ?` lookup an exact, case-sensitive string match). -/

/-- `GetCachedQuery` (db.go): `SELECT embedding FROM search_history WHERE
query_text = ?`; `sql.ErrNoRows` — modelled as `none` — when absent. -/
def getCachedQuery (cache : List (String × List Nat)) (text : String) :
    Option (List Nat) :=
  (cache.find? fun e => e.1 == text).map Prod.snd

/-- `SaveCachedQuery` (db.go): `INSERT OR IGNORE INTO search_history
(query_text, embedding) VALUES (?, ?)` — insert-if-absent, never overwrite. -/
def saveCachedQuery (cache : List (String × List Nat)) (text : String)
    (blob : List Nat) : List (String × List Nat) :=
  if (cache.find? fun e => e.1 == text).isSome then cache
  else cache ++ [(text, blob)]

/-- `strings.TrimSpace` on the character list: drop whitespace from both
ends. -/
def trimList (cs : List Char) : List Char :=
  ((cs.dropWhile (·.isWhitespace)).reverse.dropWhile (·.isWhitespace)).reverse

/-- `strings.TrimSpace`. -/
def trimStr (s : String) : String := ⟨trimList s.data⟩

/-- `strings.ToLower`, character-wise (the claims only exercise ASCII). -/
def toLowerStr (s : String) : String := ⟨s.data.map Char.toLower⟩

/-- The normalisation the spec prescribes for search-cache keys —
`strings.ToLower(strings.TrimSpace(text))`.  In the source it is applied in
the legacy `search.go` entry point and to the target of the
`search clear` command, but nowhere on the path cited by the spec
(`searcher.getQueryVector` / `cmd.performSearch`). -/
def normalizeQuery (text : String) : String := toLowerStr (trimStr text)

/-- Outcome of one cache-aside query resolution: the returned vector (float
bit patterns) or error, the search-history table afterwards, and whether the
embedding backend was called. -/
structure QueryResolution where
  result : Except String (List Nat)
  cache : List (String × List Nat)
  backendCalled : Bool

/-- `getQueryVector` (internal/searcher/search.go): look the query text up
in `search_history` exactly as given; on a hit decode the stored blob and
return it with no backend call; on a miss call the embedding backend
(`embed`, returning the vector's bit patterns, `none` on failure), save the
encoded blob under the same raw text (a failed save is only logged), and
return the fresh vector.  The text is used verbatim — no lower-casing, no
trimming — both for the lookup and for the save.  `cmd.performSearch`
(cmd/search.go) follows the same logic with the same raw key. -/
def getQueryVector (embed : String → Option (List Nat))
    (cache : List (String × List Nat)) (text : String) : QueryResolution :=
  match getCachedQuery cache text with
  | some blob => { result := bytesToFloats blob, cache := cache, backendCalled := false }
  | none =>
      match embed text with
      | none => { result := .error "embedding failed", cache := cache, backendCalled := true }
      | some floats =>
          { result := .ok floats
            cache := saveCachedQuery cache text (floatsToBytes floats)
            backendCalled := true }

/-! ## Selector-driven extractor (`internal/scraper/scraper.go`)

`parseHTML` walks the rows matched by `sel.ProductRow`.  What the DOM
queries of one row return is abstracted into `RowDOM`: the goquery calls
`s.Find(x).First().Text()`, `link.Attr("href")` (which yields `""` when the
attribute is missing), `s.Next().Find(x).Text()` and `s.Find(x).Length()`
become fields. -/

/-- `config.Selectors` (internal/config). -/
structure Selectors where
  cookieButton : String
  newsletterPopup : String
  productListWait : String
  productRow : String
  link : String
  price : String
  origin : String
  stockButton : String
  stockComingSoon : String
  description : String
  descriptionIsNextRow : Bool
deriving DecidableEq

/-- `config.SiteConfig` (internal/config). -/
structure SiteConfig where
  categoryURL : String
  selectors : Selectors
  disallowedKeywords : List String
deriving DecidableEq

/-- What the configured DOM queries return for one product row. -/
structure RowDOM where
  linkText : String
  linkHref : String
  priceText : String
  originText : String
  descText : String
  descNextRowText : String
  stockButtonCount : Nat
  comingSoonCount : Nat
deriving DecidableEq

/-- Does `s` start with `pat`? (element-wise on characters). -/
def startsWithSeq : List Char → List Char → Bool
  | [], _ => true
  | _ :: _, [] => false
  | a :: as, b :: bs => a == b && startsWithSeq as bs

/-- Does `s` contain `pat` as a contiguous subsequence? -/
def hasSubSeq : List Char → List Char → Bool
  | [], pat => pat.isEmpty
  | c :: rest, pat => startsWithSeq pat (c :: rest) || hasSubSeq rest pat

/-- `strings.Contains s sub`. -/
def containsStr (s sub : String) : Bool := hasSubSeq s.data sub.data

/-- The regexp `[^\d\.]+` replacement in `parsePrice`: keep only digits and
dots. -/
def stripNonPrice (s : String) : List Char :=
  s.data.filter fun c => c.isDigit || c == '.'

/-- Decimal digits to a number (`foldl` over the digit characters). -/
def digitsToNat (cs : List Char) : Nat :=
  cs.foldl (fun n c => 10 * n + (c.toNat - 48)) 0

/-- `strconv.ParseFloat` restricted to digits-and-dots input, with the value
taken exactly (the claims never depend on float64 rounding): `none` exactly
when Go errors — empty input, a lone dot, or more than one dot. -/
def parseDec (cs : List Char) : Option ℚ :=
  match cs.splitOn '.' with
  | [intPart] => if intPart.isEmpty then none else some (digitsToNat intPart : ℚ)
  | [intPart, fracPart] =>
      if intPart.isEmpty && fracPart.isEmpty then none
      else some ((digitsToNat intPart : ℚ) + (digitsToNat fracPart : ℚ) / 10 ^ fracPart.length)
  | _ => none

/-- `parsePrice` (scraper.go): strip every character that is not a digit or
dot, parse the rest; an unparsable remainder yields 0, never an error. -/
def parsePrice (s : String) : ℚ := (parseDec (stripNonPrice s)).getD 0

/-- Body of the `doc.Find(sel.ProductRow).Each` closure in `parseHTML`: one
row yields at most one draft.  `none` both for the keyword early `return`
and for the final name/URL gate.  Fields never assigned by the extractor
(score, region, tasting notes, processing) keep their Go zero values. -/
def parseRow (cfg : SiteConfig) (row : RowDOM) : Option CoffeeItem :=
  let sel := cfg.selectors
  let name := trimStr row.linkText
  let url := row.linkHref
  let nameLower := toLowerStr name
  if cfg.disallowedKeywords.any fun kw => containsStr nameLower (toLowerStr kw) then
    none
  else
    let price := parsePrice row.priceText
    let origin := if sel.origin ≠ "" then trimStr row.originText else ""
    let description :=
      if sel.description ≠ "" then
        if sel.descriptionIsNextRow then trimStr row.descNextRowText
        else trimStr row.descText
      else ""
    let stockStatus :=
      if sel.stockButton ≠ "" ∧ row.stockButtonCount > 0 then "In Stock"
      else if sel.stockComingSoon ≠ "" ∧ row.comingSoonCount > 0 then "Coming Soon"
      else "Out of Stock"
    if name ≠ "" ∧ url ≠ "" then
      some { url := url, name := name, price := price, score := 0, origin := origin,
             region := "", tastingNotes := "", processing := "",
             description := description, stockStatus := stockStatus }
    else none

/-- `parseHTML` (scraper.go): apply the row closure to every matched row;
skipped rows contribute nothing. -/
def parseHTML (cfg : SiteConfig) (rows : List RowDOM) : List CoffeeItem :=
  rows.filterMap (parseRow cfg)

/-! ## Similarity ranker (`internal/searcher/search.go`)

`Perform` decodes every stored candidate blob (skipping undecodable ones),
scores each against the query vector with `CosineSimilarity`, sorts by
descending score with `sort.Slice`, and truncates to the top 5.

Two aspects of `float32` semantics enter only as abstract parameters:
`bitsToVal` interprets a decoded 32-bit pattern as the number it denotes,
and `sqrtF` is the square-root used inside `CosineSimilarity`.  `sort.Slice`
is an unstable sort whose contract is exactly "some permutation sorted by
the less function"; it is modelled by insertion sort, one such permutation
(the source's tie order is unspecified). -/

/-- `db.CoffeeVector`: one active stored item with an embedding blob. -/
structure CoffeeVector where
  url : String
  name : String
  origin : String
  description : String
  vector : List Nat
deriving DecidableEq

/-- `searcher.Result`: one scored match. -/
structure Result where
  item : CoffeeVector
  score : ℚ
deriving DecidableEq

/-- The order `sort.Slice` establishes with
`less i j := results[i].Score > results[j].Score`: a sorted output satisfies
`scoreRel` on every ordered pair, i.e. scores are non-increasing. -/
def scoreRel (x y : Result) : Prop := y.score ≤ x.score

instance scoreRelDecidable : DecidableRel scoreRel :=
  fun x y => inferInstanceAs (Decidable (y.score ≤ x.score))

instance scoreRelTotal : IsTotal Result scoreRel :=
  ⟨fun a b => le_total b.score a.score⟩

instance scoreRelTrans : IsTrans Result scoreRel :=
  ⟨fun _ _ _ h1 h2 => le_trans h2 h1⟩

/-- The scoring loop of `Perform`: decode each candidate's blob with
`BytesToFloats` (a failing decode `continue`s past the candidate) and score
it against the query vector with `CosineSimilarity`. -/
def scoredResults (bitsToVal : Nat → ℚ) (sqrtF : ℚ → ℚ) (queryVector : List ℚ)
    (coffees : List CoffeeVector) : List Result :=
  coffees.filterMap fun c =>
    match bytesToFloats c.vector with
    | .ok bits =>
        some { item := c
               score := cosineSimilarity sqrtF queryVector (bits.map bitsToVal) }
    | .error _ => none

/-- `searcher.Perform`, after the query vector is resolved: score, sort by
descending score, and keep only the first 5 when more are present. -/
def perform (bitsToVal : Nat → ℚ) (sqrtF : ℚ → ℚ) (queryVector : List ℚ)
    (coffees : List CoffeeVector) : List Result :=
  let sorted := List.insertionSort scoreRel
    (scoredResults bitsToVal sqrtF queryVector coffees)
  if 5 < sorted.length then sorted.take 5 else sorted

/-! ## Vector-encoding lemmas and claim C5 -/

lemma floatsToBytes_length (v : List Nat) :
    (floatsToBytes v).length = 4 * v.length := by
  induction v with
  | nil => simp [floatsToBytes]
  | cons w ws ih => simp [floatsToBytes, ih]; ring

lemma bytesToFloatsAux_floatsToBytes (v : List Nat) (hv : ∀ w ∈ v, w < 2 ^ 32) :
    bytesToFloatsAux (floatsToBytes v) = v := by
  induction v with
  | nil => simp [floatsToBytes, bytesToFloatsAux]
  | cons w ws ih =>
      have hw : w < 2 ^ 32 := hv w (by simp)
      have hws : ∀ u ∈ ws, u < 2 ^ 32 := fun u hu => hv u (by simp [hu])
      simp only [floatsToBytes, bytesToFloatsAux, ih hws, List.cons.injEq, and_true]
      omega

/-- C5: for every vector of float32 bit patterns, decoding the encoding
returns exactly the vector; the encoding is exactly 4×N little-endian bytes
with no header or length prefix; and decoding rejects any byte slice whose
length is not a multiple of 4. -/
theorem floats_bytes_roundtrip (v b : List Nat)
    (hv : ∀ w ∈ v, w < 2 ^ 32) (hb : b.length % 4 ≠ 0) :
    bytesToFloats (floatsToBytes v) = .ok v ∧
    (floatsToBytes v).length = 4 * v.length ∧
    ∃ msg, bytesToFloats b = .error msg := by
  refine ⟨?_, floatsToBytes_length v, ?_⟩
  · have hlen : (floatsToBytes v).length % 4 = 0 := by
      rw [floatsToBytes_length]; omega
    simp [bytesToFloats, hlen, bytesToFloatsAux_floatsToBytes v hv]
  · exact ⟨"invalid byte length for float32 slice", by simp [bytesToFloats, hb]⟩

/-- Witness for C5 at a concrete vector and a concrete ill-sized slice. -/
theorem floats_bytes_roundtrip_witness :
    bytesToFloats (floatsToBytes [0, 4294967295, 305419896]) =
      .ok [0, 4294967295, 305419896] ∧
    (floatsToBytes [0, 4294967295, 305419896]).length = 4 * 3 ∧
    ∃ msg, bytesToFloats [1, 2, 3] = .error msg :=
  floats_bytes_roundtrip [0, 4294967295, 305419896] [1, 2, 3]
    (by decide) (by decide)

/-! ## Cosine-similarity lemmas and claim C8 -/

lemma sumSquares_nonneg (v : List ℚ) : 0 ≤ sumSquares v := by
  induction v with
  | nil => simp [sumSquares, dotList]
  | cons a as ih =>
      have h : sumSquares (a :: as) = a * a + sumSquares as := rfl
      rw [h]
      nlinarith [sq_nonneg a]

lemma sumSquares_eq_zero_iff (v : List ℚ) :
    sumSquares v = 0 ↔ ∀ x ∈ v, x = 0 := by
  induction v with
  | nil => simp [sumSquares, dotList]
  | cons a as ih =>
      have hrw : sumSquares (a :: as) = a * a + sumSquares as := rfl
      constructor
      · intro h x hx
        have ha2 : 0 ≤ a * a := mul_self_nonneg a
        have hs : 0 ≤ sumSquares as := sumSquares_nonneg as
        rw [hrw] at h
        have haz : a * a = 0 := by linarith
        have hsz : sumSquares as = 0 := by linarith
        rcases List.mem_cons.mp hx with h1 | h2
        · subst h1; exact mul_self_eq_zero.mp haz
        · exact (ih.mp hsz) x h2
      · intro h
        rw [hrw]
        have ha : a = 0 := h a (by simp)
        have hs : sumSquares as = 0 := ih.mpr fun x hx => h x (by simp [hx])
        simp [ha, hs]

lemma cosineSimilarity_eq (sqrtF : ℚ → ℚ) (a b : List ℚ) :
    cosineSimilarity sqrtF a b =
      if a.length ≠ b.length ∨ a.length = 0 then 0
      else if sumSquares a = 0 ∨ sumSquares b = 0 then 0
      else dotList a b / (sqrtF (sumSquares a) * sqrtF (sumSquares b)) := rfl

/-- C8: `CosineSimilarity` is total and never fails — mismatched lengths or
a zero squared magnitude yield 0, and the division by the product of (square
roots of) magnitudes is only reached when both magnitudes are non-zero. -/
theorem cosineSimilarity_total (sqrtF : ℚ → ℚ) (a b : List ℚ) :
    (a.length ≠ b.length → cosineSimilarity sqrtF a b = 0) ∧
    (sumSquares a = 0 → cosineSimilarity sqrtF a b = 0) ∧
    (sumSquares b = 0 → cosineSimilarity sqrtF a b = 0) ∧
    (a.length = b.length → sumSquares a ≠ 0 → sumSquares b ≠ 0 →
      cosineSimilarity sqrtF a b =
        dotList a b / (sqrtF (sumSquares a) * sqrtF (sumSquares b))) := by
  refine ⟨fun hne => ?_, fun ha => ?_, fun hb => ?_, fun hlen ha hb => ?_⟩
  · rw [cosineSimilarity_eq, if_pos (Or.inl hne)]
  · rw [cosineSimilarity_eq]
    by_cases h1 : a.length ≠ b.length ∨ a.length = 0
    · rw [if_pos h1]
    · rw [if_neg h1, if_pos (Or.inl ha)]
  · rw [cosineSimilarity_eq]
    by_cases h1 : a.length ≠ b.length ∨ a.length = 0
    · rw [if_pos h1]
    · rw [if_neg h1, if_pos (Or.inr hb)]
  · have hA : a ≠ [] := by
      intro h; apply ha; subst h; rfl
    have hlen0 : a.length ≠ 0 := by
      simpa [List.length_eq_zero] using hA
    have hguard : ¬(a.length ≠ b.length ∨ a.length = 0) := by
      push_neg
      exact ⟨hlen, hlen0⟩
    rw [cosineSimilarity_eq, if_neg hguard, if_neg (not_or.mpr ⟨ha, hb⟩)]

/-- Witness for C8: each guard exercised at concrete vectors, plus the
division shape on a non-degenerate pair. -/
theorem cosineSimilarity_total_witness :
    cosineSimilarity id [1] [2, 3] = 0 ∧
    cosineSimilarity id [0, 0] [5, 6] = 0 ∧
    cosineSimilarity id [5, 6] [0, 0] = 0 ∧
    cosineSimilarity id [1, 2] [3, 4] =
      dotList [1, 2] [3, 4] / (id (sumSquares [1, 2]) * id (sumSquares [3, 4])) := by
  refine ⟨(cosineSimilarity_total id [1] [2, 3]).1 (by norm_num),
          (cosineSimilarity_total id [0, 0] [5, 6]).2.1
            (by norm_num [sumSquares, dotList]),
          (cosineSimilarity_total id [5, 6] [0, 0]).2.2.1
            (by norm_num [sumSquares, dotList]),
          (cosineSimilarity_total id [1, 2] [3, 4]).2.2.2 (by norm_num)
            (by norm_num [sumSquares, dotList]) (by norm_num [sumSquares, dotList])⟩

/-! ## Extractor: claim C6 -/

/-- C6: a row whose extracted name contains an excluded keyword under
case-insensitive comparison is never emitted, regardless of every other
field of the row. -/
theorem parseRow_keyword_excluded (cfg : SiteConfig) (row : RowDOM) (kw : String)
    (hkw : kw ∈ cfg.disallowedKeywords)
    (hsub : containsStr (toLowerStr (trimStr row.linkText)) (toLowerStr kw) = true) :
    parseRow cfg row = none := by
  have hany :
      (cfg.disallowedKeywords.any fun k =>
        containsStr (toLowerStr (trimStr row.linkText)) (toLowerStr k)) = true :=
    List.any_eq_true.mpr ⟨kw, hkw, hsub⟩
  simp only [parseRow]
  rw [if_pos hany]

/-- Sample selector configuration: the exclusion list holds `blend`. -/
def sampleConfig : SiteConfig :=
  { categoryURL := "https://example.test/collections/coffee"
    selectors :=
      { cookieButton := "#accept"
        newsletterPopup := "#close"
        productListWait := ".grid"
        productRow := ".row"
        link := "a.title"
        price := ".price"
        origin := ".origin"
        stockButton := ".add-to-cart"
        stockComingSoon := ".coming-soon"
        description := ".desc"
        descriptionIsNextRow := true }
    disallowedKeywords := ["blend"] }

/-- Sample row whose name contains `Blend` in mixed case, with every other
field valid. -/
def sampleRow : RowDOM :=
  { linkText := "House Blend Coffee"
    linkHref := "/products/house-blend"
    priceText := "$25.50"
    originText := "Brazil"
    descText := ""
    descNextRowText := "A balanced cup."
    stockButtonCount := 1
    comingSoonCount := 0 }

/-- Witness for C6: the mixed-case `Blend` row is dropped. -/
theorem parseRow_keyword_excluded_witness : parseRow sampleConfig sampleRow = none :=
  parseRow_keyword_excluded sampleConfig sampleRow "blend" (by simp [sampleConfig])
    (by decide)

/-! ## Reconciliation store: claim C2 (atomic batches) -/

lemma saveDataLoop_spec (fails : CoffeeItem → Bool) (now : Nat) :
    ∀ (items : List CoffeeItem) (st : List CoffeeRow) (cnt : Int),
      saveDataLoop fails now items st cnt =
        match items.find? fails with
        | some it => .error ("failed to upsert " ++ it.url)
        | none => .ok (upsertAll now items st, cnt + items.length)
  | [], st, cnt => by
      simp [saveDataLoop, upsertAll]
  | it :: rest, st, cnt => by
      by_cases h : fails it
      · simp [saveDataLoop, h, List.find?_cons_of_pos _ h]
      · rw [show saveDataLoop fails now (it :: rest) st cnt =
              saveDataLoop fails now rest (upsertOne now it st) (cnt + 1) by
            simp [saveDataLoop, h]]
        rw [saveDataLoop_spec fails now rest (upsertOne now it st) (cnt + 1)]
        rw [List.find?_cons_of_neg _ (by simp [h])]
        cases hf : rest.find? fails with
        | some it2 => simp
        | none =>
            have hlen : cnt + 1 + (rest.length : Int) = cnt + ((it :: rest).length : Int) := by
              simp [List.length_cons]
              ring
            simp only [hlen]
            rfl

/-- C2: `SaveData` is all-or-nothing per batch — if any draft fails to
persist, the store is returned exactly unchanged together with the failure
(of the first failing draft); only when every draft persists does the
transaction commit, applying every upsert and reporting one affected row
per draft. -/
theorem saveData_atomic (fails : CoffeeItem → Bool) (now : Nat)
    (items : List CoffeeItem) (s : List CoffeeRow) :
    saveData fails now items s =
      match items.find? fails with
      | some it => (s, .error ("failed to upsert " ++ it.url))
      | none => (upsertAll now items s, .ok (items.length : Int)) := by
  unfold saveData
  rw [saveDataLoop_spec]
  cases h : items.find? fails with
  | some it => rfl
  | none => simp

/-! ## Row-level facts about the upsert -/

lemma updateRow_url (now : Nat) (item : CoffeeItem) (r : CoffeeRow) :
    (updateRow now item r).url = r.url := rfl

lemma insertRow_url (now : Nat) (item : CoffeeItem) :
    (insertRow now item).url = item.url := rfl

lemma findRow_map_update (now : Nat) (item : CoffeeItem) :
    ∀ s : List CoffeeRow,
      (s.any fun r => r.url == item.url) = true →
      ∃ r0 ∈ s,
        findRow item.url
          (s.map fun r => if r.url == item.url then updateRow now item r else r) =
          some (updateRow now item r0)
  | [], h => by simp at h
  | r :: rest, h => by
      by_cases hr : (r.url == item.url) = true
      · refine ⟨r, by simp, ?_⟩
        have hup : ((updateRow now item r).url == item.url) = true := by
          rw [updateRow_url]; exact hr
        simp only [List.map_cons, if_pos hr, findRow]
        exact @List.find?_cons_of_pos _ (fun x : CoffeeRow => x.url == item.url) _ _ hup
      · have htail : (rest.any fun x => x.url == item.url) = true := by
          simp only [List.any_cons, hr, Bool.false_or] at h
          exact h
        obtain ⟨r0, hr0, hfind⟩ := findRow_map_update now item rest htail
        refine ⟨r0, by simp [hr0], ?_⟩
        simp only [List.map_cons, if_neg hr, findRow] at hfind ⊢
        rw [@List.find?_cons_of_neg _ (fun x : CoffeeRow => x.url == item.url) r _ (by simp [hr])]
        exact hfind

lemma findRow_append_insert (now : Nat) (item : CoffeeItem) :
    ∀ s : List CoffeeRow,
      (∀ r ∈ s, (r.url == item.url) = false) →
      findRow item.url (s ++ [insertRow now item]) = some (insertRow now item)
  | [], _ => by
      simp only [List.nil_append, findRow]
      exact @List.find?_cons_of_pos _ (fun x : CoffeeRow => x.url == item.url) _ _
        (beq_self_eq_true item.url)
  | r :: rest, h => by
      have hr : (r.url == item.url) = false := h r (by simp)
      have hrest : ∀ x ∈ rest, (x.url == item.url) = false :=
        fun x hx => h x (by simp [hx])
      simp only [List.cons_append, findRow]
      rw [@List.find?_cons_of_neg _ (fun x : CoffeeRow => x.url == item.url) r _ (by simp [hr])]
      exact findRow_append_insert now item rest hrest

lemma findRow_upsertOne_self (now : Nat) (item : CoffeeItem) (s : List CoffeeRow) :
    ∃ r, findRow item.url (upsertOne now item s) = some r ∧
      ((∃ r0, r = updateRow now item r0) ∨ r = insertRow now item) := by
  unfold upsertOne
  by_cases hany : (s.any fun r => r.url == item.url) = true
  · rw [if_pos hany]
    obtain ⟨r0, _, hfind⟩ := findRow_map_update now item s hany
    exact ⟨updateRow now item r0, hfind, Or.inl ⟨r0, rfl⟩⟩
  · rw [if_neg hany]
    have hall : ∀ r ∈ s, (r.url == item.url) = false := by
      intro r hr
      by_contra hcon
      exact hany (List.any_eq_true.mpr ⟨r, hr, by simpa using hcon⟩)
    exact ⟨insertRow now item, findRow_append_insert now item s hall, Or.inr rfl⟩

lemma saveData_ok_state (now : Nat) (items : List CoffeeItem) (s : List CoffeeRow) :
    (saveData (fun _ => false) now items s).1 = upsertAll now items s := by
  unfold saveData
  rw [saveDataLoop_spec]
  rw [List.find?_eq_none.mpr (by intro a _; simp)]

/-- C10: `SaveData` binds the origin, region, tasting-notes, processing,
description and stock-status columns to SQL `NULL` exactly when the draft's
string is empty, and the score column to `NULL` exactly when the score is
not strictly positive — so an upsert of such a draft replaces any previously
present stored value with an absent one (the store `s` is arbitrary here,
including one already holding values under the same URL). -/
theorem saveData_null_absent_fields (now : Nat) (item : CoffeeItem) (s : List CoffeeRow) :
    ∃ r, findRow item.url ((saveData (fun _ => false) now [item] s).1) = some r ∧
      r.origin = (if item.origin = "" then none else some item.origin) ∧
      r.region = (if item.region = "" then none else some item.region) ∧
      r.tastingNotes = (if item.tastingNotes = "" then none else some item.tastingNotes) ∧
      r.processing = (if item.processing = "" then none else some item.processing) ∧
      r.description = (if item.description = "" then none else some item.description) ∧
      r.stockStatus = (if item.stockStatus = "" then none else some item.stockStatus) ∧
      r.score = (if 0 < item.score then some item.score else none) := by
  rw [saveData_ok_state]
  have hone : upsertAll now [item] s = upsertOne now item s := rfl
  rw [hone]
  obtain ⟨r, hfind, hshape⟩ := findRow_upsertOne_self now item s
  refine ⟨r, hfind, ?_⟩
  rcases hshape with ⟨r0, rfl⟩ | rfl <;>
    exact ⟨rfl, rfl, rfl, rfl, rfl, rfl, rfl⟩

/-! ## Claim C4: fetchUnembedded and NULL descriptions -/

/-- A draft whose description is empty — `SaveData` will store the
description column as SQL `NULL`. -/
def sampleDraftNoDesc : CoffeeItem :=
  { url := "https://x/c", name := "C", price := 0, score := 0, origin := "",
    region := "", tastingNotes := "", processing := "", description := "",
    stockStatus := "In Stock" }

/-- Counterexample to C4 as stated: ingesting a single draft with an empty
description yields an active, unembedded record, yet `GetUnembeddedCoffees`
returns no entry at all for it — the NULL description makes the row scan
fail and the row is silently dropped, so the record is never embedded. -/
theorem getUnembedded_omits_null_description :
    (saveData (fun _ => false) 3 [sampleDraftNoDesc] []).1 =
      [insertRow 3 sampleDraftNoDesc] ∧
    (insertRow 3 sampleDraftNoDesc).isActive = true ∧
    (insertRow 3 sampleDraftNoDesc).descriptionEmbedding = none ∧
    getUnembeddedCoffees [insertRow 3 sampleDraftNoDesc] = [] := by
  refine ⟨?_, rfl, rfl, rfl⟩
  rw [saveData_ok_state]
  rfl

/-- C4 (amended): every active record lacking an embedding whose stored
description is present (non-NULL) gets an entry mapping its URL to the
composite name-and-description string; records with a NULL description are
omitted. -/
theorem getUnembedded_contains_desc_present (s : List CoffeeRow) (r : CoffeeRow)
    (d : String) (hr : r ∈ s) (hact : r.isActive = true)
    (hemb : r.descriptionEmbedding = none) (hd : r.description = some d) :
    (r.url, "Coffee Name: " ++ r.name ++ "\nDescription: " ++ d) ∈
      getUnembeddedCoffees s := by
  unfold getUnembeddedCoffees
  refine List.mem_filterMap.mpr ⟨r, ?_, ?_⟩
  · exact List.mem_filter.mpr ⟨hr, by simp [hact, hemb]⟩
  · rw [hd]

/-- An active unembedded row whose description is present. -/
def rowWithDesc : CoffeeRow :=
  { url := "https://x/d", name := "D", price := 5, score := none, origin := none,
    region := none, tastingNotes := none, processing := none,
    description := some "tasty", stockStatus := some "In Stock",
    firstScrapedAt := 1, lastScrapedAt := 1, lastSeenAt := 1, isActive := true,
    descriptionEmbedding := none }

/-- Witness for the amended C4 at a concrete store. -/
theorem getUnembedded_contains_desc_present_witness :
    (rowWithDesc.url, "Coffee Name: " ++ rowWithDesc.name ++ "\nDescription: " ++ "tasty") ∈
      getUnembeddedCoffees [rowWithDesc] :=
  getUnembedded_contains_desc_present [rowWithDesc] rowWithDesc "tasty"
    (by simp) rfl rfl rfl

/-! ## Claim C3: active/inactive partition and soft delete -/

lemma upsertOne_active_of_url (now : Nat) (i : CoffeeItem) (s : List CoffeeRow)
    (r : CoffeeRow) (hr : r ∈ upsertOne now i s) (hu : r.url = i.url) :
    r.isActive = true := by
  unfold upsertOne at hr
  by_cases hany : (s.any fun x => x.url == i.url) = true
  · rw [if_pos hany] at hr
    obtain ⟨r0, _, hmap⟩ := List.mem_map.mp hr
    by_cases h0 : (r0.url == i.url) = true
    · rw [if_pos h0] at hmap
      rw [← hmap]
      rfl
    · rw [if_neg h0] at hmap
      subst hmap
      exact absurd (beq_iff_eq.mpr hu) h0
  · rw [if_neg hany] at hr
    rcases List.mem_append.mp hr with h1 | h2
    · have hc : (s.any fun x => x.url == i.url) = true :=
        List.any_eq_true.mpr ⟨r, h1, by simp [hu]⟩
      exact absurd hc hany
    · have h2' : r = insertRow now i := by simpa using h2
      subst h2'
      rfl

lemma upsertOne_preserves_active_at (u : String) (now : Nat) (i : CoffeeItem)
    (s : List CoffeeRow) (hbase : ∀ r ∈ s, r.url = u → r.isActive = true)
    (r : CoffeeRow) (hr : r ∈ upsertOne now i s) (hu : r.url = u) :
    r.isActive = true := by
  unfold upsertOne at hr
  by_cases hany : (s.any fun x => x.url == i.url) = true
  · rw [if_pos hany] at hr
    obtain ⟨r0, hr0, hmap⟩ := List.mem_map.mp hr
    by_cases h0 : (r0.url == i.url) = true
    · rw [if_pos h0] at hmap
      rw [← hmap]
      rfl
    · rw [if_neg h0] at hmap
      subst hmap
      exact hbase _ hr0 hu
  · rw [if_neg hany] at hr
    rcases List.mem_append.mp hr with h1 | h2
    · exact hbase r h1 hu
    · have h2' : r = insertRow now i := by simpa using h2
      subst h2'
      rfl

lemma upsertOne_inactive_outside (U : List String) (now : Nat) (i : CoffeeItem)
    (hiU : i.url ∈ U) (s : List CoffeeRow)
    (hbase : ∀ r ∈ s, r.url ∉ U → r.isActive = false)
    (r : CoffeeRow) (hr : r ∈ upsertOne now i s) (hrU : r.url ∉ U) :
    r.isActive = false := by
  unfold upsertOne at hr
  by_cases hany : (s.any fun x => x.url == i.url) = true
  · rw [if_pos hany] at hr
    obtain ⟨r0, hr0, hmap⟩ := List.mem_map.mp hr
    by_cases h0 : (r0.url == i.url) = true
    · rw [if_pos h0] at hmap
      have hurl : r.url = i.url := by
        rw [← hmap, updateRow_url]
        exact beq_iff_eq.mp h0
      exact absurd (hurl ▸ hiU) hrU
    · rw [if_neg h0] at hmap
      subst hmap
      exact hbase _ hr0 hrU
  · rw [if_neg hany] at hr
    rcases List.mem_append.mp hr with h1 | h2
    · exact hbase r h1 hrU
    · have h2' : r = insertRow now i := by simpa using h2
      subst h2'
      exact absurd hiU (by simpa using hrU)

lemma upsertOne_mem_of_ne (now : Nat) (i : CoffeeItem) (s : List CoffeeRow)
    (r : CoffeeRow) (h : r ∈ s) (hne : r.url ≠ i.url) : r ∈ upsertOne now i s := by
  unfold upsertOne
  by_cases hany : (s.any fun x => x.url == i.url) = true
  · rw [if_pos hany]
    refine List.mem_map.mpr ⟨r, h, ?_⟩
    rw [if_neg (by simpa using hne)]
  · rw [if_neg hany]
    exact List.mem_append_left _ h

lemma upsertOne_exists_url (u : String) (now : Nat) (i : CoffeeItem)
    (s : List CoffeeRow) (h : ∃ r ∈ s, r.url = u) :
    ∃ r2 ∈ upsertOne now i s, r2.url = u := by
  obtain ⟨r, hr, hu⟩ := h
  unfold upsertOne
  by_cases hany : (s.any fun x => x.url == i.url) = true
  · rw [if_pos hany]
    refine ⟨if (r.url == i.url) = true then updateRow now i r else r,
      List.mem_map.mpr ⟨r, hr, rfl⟩, ?_⟩
    by_cases h0 : (r.url == i.url) = true
    · rw [if_pos h0, updateRow_url]
      exact hu
    · rw [if_neg h0]
      exact hu
  · rw [if_neg hany]
    exact ⟨r, List.mem_append_left _ hr, hu⟩

lemma upsertAll_cons (now : Nat) (i : CoffeeItem) (rest : List CoffeeItem)
    (s : List CoffeeRow) :
    upsertAll now (i :: rest) s = upsertAll now rest (upsertOne now i s) := rfl

lemma upsertAll_preserves_active_at (u : String) (now : Nat) :
    ∀ (items : List CoffeeItem) (s : List CoffeeRow),
      (∀ r ∈ s, r.url = u → r.isActive = true) →
      ∀ r ∈ upsertAll now items s, r.url = u → r.isActive = true
  | [], _, hbase => hbase
  | i :: rest, s, hbase => by
      rw [upsertAll_cons]
      exact upsertAll_preserves_active_at u now rest (upsertOne now i s)
        (fun r hr hu => upsertOne_preserves_active_at u now i s hbase r hr hu)

lemma upsertAll_active_of_mem (now : Nat) :
    ∀ (items : List CoffeeItem) (s : List CoffeeRow) (r : CoffeeRow),
      r ∈ upsertAll now items s → (∃ i ∈ items, i.url = r.url) → r.isActive = true
  | [], _, _, _, hex => absurd hex.choose_spec.1 (List.not_mem_nil _)
  | i :: rest, s, r, hr, hex => by
      rw [upsertAll_cons] at hr
      obtain ⟨j, hj, hju⟩ := hex
      rcases List.mem_cons.mp hj with rfl | hjr
      · exact upsertAll_preserves_active_at j.url now rest (upsertOne now j s)
          (fun x hx hxu => upsertOne_active_of_url now j s x hx hxu) r hr hju.symm
      · exact upsertAll_active_of_mem now rest (upsertOne now i s) r hr ⟨j, hjr, hju⟩

lemma upsertAll_inactive_outside (U : List String) (now : Nat) :
    ∀ (items : List CoffeeItem), (∀ i ∈ items, i.url ∈ U) →
      ∀ (s : List CoffeeRow), (∀ r ∈ s, r.url ∉ U → r.isActive = false) →
      ∀ r ∈ upsertAll now items s, r.url ∉ U → r.isActive = false
  | [], _, _, hbase => hbase
  | i :: rest, hU, s, hbase => by
      rw [upsertAll_cons]
      exact upsertAll_inactive_outside U now rest (fun j hj => hU j (by simp [hj]))
        (upsertOne now i s)
        (fun r hr hrU => upsertOne_inactive_outside U now i (hU i (by simp)) s hbase r hr hrU)

lemma upsertAll_mem_of_ne_all (now : Nat) :
    ∀ (items : List CoffeeItem) (s : List CoffeeRow) (r : CoffeeRow),
      r ∈ s → (∀ i ∈ items, r.url ≠ i.url) → r ∈ upsertAll now items s
  | [], _, _, h, _ => h
  | i :: rest, s, r, h, hne => by
      rw [upsertAll_cons]
      exact upsertAll_mem_of_ne_all now rest (upsertOne now i s) r
        (upsertOne_mem_of_ne now i s r h (hne i (by simp)))
        (fun j hj => hne j (by simp [hj]))

lemma upsertAll_exists_url (u : String) (now : Nat) :
    ∀ (items : List CoffeeItem) (s : List CoffeeRow),
      (∃ r ∈ s, r.url = u) → ∃ r2 ∈ upsertAll now items s, r2.url = u
  | [], _, h => h
  | i :: rest, s, h => by
      rw [upsertAll_cons]
      exact upsertAll_exists_url u now rest (upsertOne now i s)
        (upsertOne_exists_url u now i s h)

lemma markAll_inactive (s : List CoffeeRow) (r : CoffeeRow)
    (hr : r ∈ markAllAsInactive s) : r.isActive = false := by
  obtain ⟨r0, _, hmap⟩ := List.mem_map.mp hr
  by_cases h0 : r0.isActive = true
  · rw [if_pos h0] at hmap
    rw [← hmap]
  · rw [if_neg h0] at hmap
    subst hmap
    simpa using h0

lemma setInactive_eta (r : CoffeeRow) (h : r.isActive = false) :
    ({ r with isActive := false } : CoffeeRow) = r := by
  cases r
  simp_all

lemma markAll_mem (s : List CoffeeRow) (r : CoffeeRow) (hr : r ∈ s) :
    ({ r with isActive := false } : CoffeeRow) ∈ markAllAsInactive s := by
  refine List.mem_map.mpr ⟨r, hr, ?_⟩
  by_cases h : r.isActive = true
  · rw [if_pos h]
  · rw [if_neg h]
    exact (setInactive_eta r (by simpa using h)).symm

lemma markAll_exists_url (u : String) (s : List CoffeeRow)
    (h : ∃ r ∈ s, r.url = u) : ∃ r2 ∈ markAllAsInactive s, r2.url = u := by
  obtain ⟨r, hr, hu⟩ := h
  exact ⟨{ r with isActive := false }, markAll_mem s r hr, hu⟩

/-- C3: after a completed ingest run (`MarkAllAsInactive` + successful
`SaveData`), every record whose URL appears in the sweep is active, every
record whose URL does not appear is inactive but still present — with every
field except the active flag untouched — and no record is ever removed. -/
theorem ingestRun_partition (now : Nat) (items : List CoffeeItem) (s : List CoffeeRow) :
    (∀ r ∈ ingestRun now items s, r.url ∈ items.map (·.url) → r.isActive = true) ∧
    (∀ r ∈ ingestRun now items s, r.url ∉ items.map (·.url) → r.isActive = false) ∧
    (∀ r ∈ s, r.url ∉ items.map (·.url) →
      ({ r with isActive := false } : CoffeeRow) ∈ ingestRun now items s) ∧
    (∀ r ∈ s, ∃ r2 ∈ ingestRun now items s, r2.url = r.url) := by
  have hrun : ingestRun now items s = upsertAll now items (markAllAsInactive s) :=
    saveData_ok_state now items (markAllAsInactive s)
  rw [hrun]
  refine ⟨?_, ?_, ?_, ?_⟩
  · intro r hr hurl
    obtain ⟨i, hi, hiu⟩ := List.mem_map.mp hurl
    exact upsertAll_active_of_mem now items _ r hr ⟨i, hi, hiu⟩
  · intro r hr hurl
    exact upsertAll_inactive_outside (items.map (·.url)) now items
      (fun i hi => List.mem_map_of_mem _ hi) _
      (fun r0 hr0 _ => markAll_inactive s r0 hr0) r hr hurl
  · intro r hr hurl
    refine upsertAll_mem_of_ne_all now items _ _ (markAll_mem s r hr) ?_
    intro i hi heq
    exact hurl (by rw [show r.url = i.url from heq]; exact List.mem_map_of_mem _ hi)
  · intro r hr
    exact upsertAll_exists_url r.url now items _ (markAll_exists_url r.url s ⟨r, hr, rfl⟩)

/-- A stored row whose URL reappears in the next sweep. -/
def rowKept : CoffeeRow :=
  { url := "https://x/a", name := "A", price := 10, score := none,
    origin := some "Kenya", region := none, tastingNotes := none,
    processing := none, description := some "old", stockStatus := some "In Stock",
    firstScrapedAt := 1, lastScrapedAt := 1, lastSeenAt := 1, isActive := true,
    descriptionEmbedding := none }

/-- A stored row whose URL is absent from the next sweep. -/
def rowGone : CoffeeRow :=
  { url := "https://x/b", name := "B", price := 11, score := none,
    origin := some "Peru", region := none, tastingNotes := none,
    processing := none, description := some "gone", stockStatus := some "In Stock",
    firstScrapedAt := 1, lastScrapedAt := 1, lastSeenAt := 1, isActive := true,
    descriptionEmbedding := none }

/-- The next sweep's single draft, matching `rowKept`'s URL. -/
def itemKept : CoffeeItem :=
  { url := "https://x/a", name := "A", price := 12, score := 0, origin := "Kenya",
    region := "", tastingNotes := "", processing := "", description := "new",
    stockStatus := "In Stock" }

/-- Witness for C3 at a concrete run: swept URLs are active, the absent row
survives soft-deleted with its other fields intact, and its URL still
resolves. -/
theorem ingestRun_partition_witness :
    (∀ r ∈ ingestRun 2 [itemKept] [rowKept, rowGone],
        r.url ∈ [itemKept].map (·.url) → r.isActive = true) ∧
    ({ rowGone with isActive := false } : CoffeeRow) ∈
      ingestRun 2 [itemKept] [rowKept, rowGone] ∧
    (∃ r2 ∈ ingestRun 2 [itemKept] [rowKept, rowGone], r2.url = rowGone.url) := by
  have h := ingestRun_partition 2 [itemKept] [rowKept, rowGone]
  exact ⟨h.1, h.2.2.1 rowGone (by simp) (by decide),
    h.2.2.2 rowGone (by simp)⟩

/-! ## Claim C9: first_scraped_at is written once -/

lemma updateRow_fsa (now : Nat) (item : CoffeeItem) (r : CoffeeRow) :
    (updateRow now item r).firstScrapedAt = r.firstScrapedAt := rfl

lemma insertRow_fsa (now : Nat) (item : CoffeeItem) :
    (insertRow now item).firstScrapedAt = now := rfl

lemma find?_map_pred_preserving {α : Type} (f : α → α) (p : α → Bool)
    (hp : ∀ x, p (f x) = p x) :
    ∀ l : List α, (l.map f).find? p = (l.find? p).map f
  | [] => rfl
  | x :: xs => by
      by_cases hx : p x = true
      · rw [List.map_cons,
          @List.find?_cons_of_pos _ p (f x) _ (by rw [hp]; exact hx),
          @List.find?_cons_of_pos _ p x _ hx]
        rfl
      · rw [List.map_cons,
          @List.find?_cons_of_neg _ p (f x) _ (by rw [hp]; exact hx),
          @List.find?_cons_of_neg _ p x _ hx,
          find?_map_pred_preserving f p hp xs]

lemma find?_append_some {α : Type} (p : α → Bool) :
    ∀ (l1 : List α) (l2 : List α) (r : α),
      l1.find? p = some r → (l1 ++ l2).find? p = some r
  | [], _, r, h => by simp [List.find?] at h
  | x :: xs, l2, r, h => by
      by_cases hx : p x = true
      · rw [@List.find?_cons_of_pos _ p x _ hx] at h
        rw [List.cons_append, @List.find?_cons_of_pos _ p x _ hx]
        exact h
      · rw [@List.find?_cons_of_neg _ p x _ hx] at h
        rw [List.cons_append, @List.find?_cons_of_neg _ p x _ hx]
        exact find?_append_some p xs l2 r h

lemma find?_append_none {α : Type} (p : α → Bool) :
    ∀ (l1 : List α) (l2 : List α),
      l1.find? p = none → (l1 ++ l2).find? p = l2.find? p
  | [], _, _ => rfl
  | x :: xs, l2, h => by
      by_cases hx : p x = true
      · rw [@List.find?_cons_of_pos _ p x _ hx] at h
        exact absurd h (by simp)
      · rw [@List.find?_cons_of_neg _ p x _ hx] at h
        rw [List.cons_append, @List.find?_cons_of_neg _ p x _ hx]
        exact find?_append_none p xs l2 h

lemma findRow_update_eq (u : String) (now : Nat) (i : CoffeeItem) (s : List CoffeeRow) :
    findRow u (s.map fun r => if r.url == i.url then updateRow now i r else r) =
      (findRow u s).map fun r => if r.url == i.url then updateRow now i r else r :=
  find?_map_pred_preserving _ _
    (fun r => by by_cases h : (r.url == i.url) = true <;> simp [h, updateRow_url]) s

lemma findRow_markAll_eq (u : String) (s : List CoffeeRow) :
    findRow u (markAllAsInactive s) =
      (findRow u s).map fun r => if r.isActive then { r with isActive := false } else r :=
  find?_map_pred_preserving _ _
    (fun r => by by_cases h : r.isActive = true <;> simp [h]) s

lemma upsertOne_fsa_of_present (u : String) (now : Nat) (i : CoffeeItem)
    (s : List CoffeeRow) (h : (findRow u s).isSome = true) :
    (findRow u (upsertOne now i s)).map (·.firstScrapedAt) =
      (findRow u s).map (·.firstScrapedAt) := by
  obtain ⟨r, hr⟩ := Option.isSome_iff_exists.mp h
  unfold upsertOne
  by_cases hany : (s.any fun x => x.url == i.url) = true
  · rw [if_pos hany, findRow_update_eq, hr]
    show some ((if (r.url == i.url) = true then updateRow now i r
        else r).firstScrapedAt) = some r.firstScrapedAt
    by_cases h0 : (r.url == i.url) = true
    · rw [if_pos h0]
      rfl
    · rw [if_neg h0]
  · rw [if_neg hany]
    rw [show findRow u (s ++ [insertRow now i]) = some r from
      find?_append_some _ s _ r hr, hr]

lemma upsertOne_findRow_none (u : String) (now : Nat) (i : CoffeeItem)
    (s : List CoffeeRow) (hnone : findRow u s = none) (hne : u ≠ i.url) :
    findRow u (upsertOne now i s) = none := by
  unfold upsertOne
  by_cases hany : (s.any fun x => x.url == i.url) = true
  · rw [if_pos hany, findRow_update_eq, hnone]
    rfl
  · rw [if_neg hany]
    have hins : ((insertRow now i).url == u) = false := by
      rw [insertRow_url]
      exact beq_eq_false_iff_ne.mpr (Ne.symm hne)
    unfold findRow at hnone ⊢
    rw [find?_append_none _ s _ hnone]
    rw [@List.find?_cons_of_neg _ (fun x : CoffeeRow => x.url == u) _ _ (by simp [hins])]
    rfl

lemma upsertOne_findRow_insert (now : Nat) (i : CoffeeItem)
    (s : List CoffeeRow) (hnone : findRow i.url s = none) :
    findRow i.url (upsertOne now i s) = some (insertRow now i) := by
  unfold upsertOne
  have hany : ¬((s.any fun x => x.url == i.url) = true) := by
    intro hc
    obtain ⟨x, hx, hxe⟩ := List.any_eq_true.mp hc
    exact (List.find?_eq_none.mp hnone x hx) hxe
  rw [if_neg hany]
  exact findRow_append_insert now i s
    (fun x hx => by
      have hnx := List.find?_eq_none.mp hnone x hx
      simpa using hnx)

lemma upsertAll_fsa_of_present (u : String) (now : Nat) :
    ∀ (items : List CoffeeItem) (s : List CoffeeRow),
      (findRow u s).isSome = true →
      (findRow u (upsertAll now items s)).map (·.firstScrapedAt) =
        (findRow u s).map (·.firstScrapedAt)
  | [], _, _ => rfl
  | i :: rest, s, h => by
      rw [upsertAll_cons]
      have h1 := upsertOne_fsa_of_present u now i s h
      obtain ⟨r, hr⟩ := Option.isSome_iff_exists.mp h
      rw [hr] at h1
      have h2 : ∃ r2, findRow u (upsertOne now i s) = some r2 := by
        cases hfind : findRow u (upsertOne now i s) with
        | some r2 => exact ⟨r2, rfl⟩
        | none => rw [hfind] at h1; simp at h1
      obtain ⟨r2, hr2⟩ := h2
      have h3 := upsertAll_fsa_of_present u now rest (upsertOne now i s)
        (by rw [hr2]; rfl)
      rw [h3, h1, hr]

lemma upsertAll_findRow_none (u : String) (now : Nat) :
    ∀ (items : List CoffeeItem) (s : List CoffeeRow),
      findRow u s = none → u ∉ items.map (·.url) →
      findRow u (upsertAll now items s) = none
  | [], _, h, _ => h
  | i :: rest, s, h, hnotin => by
      rw [upsertAll_cons]
      have hne : u ≠ i.url := by
        intro hc
        exact hnotin (by rw [hc]; exact List.mem_map_of_mem _ (by simp))
      exact upsertAll_findRow_none u now rest (upsertOne now i s)
        (upsertOne_findRow_none u now i s h hne)
        (fun hc => hnotin (by
          obtain ⟨j, hj, hju⟩ := List.mem_map.mp hc
          exact List.mem_map.mpr ⟨j, by simp [hj], hju⟩))

lemma upsertAll_fsa_of_inserted (u : String) (now : Nat) :
    ∀ (items : List CoffeeItem) (s : List CoffeeRow),
      findRow u s = none → u ∈ items.map (·.url) →
      (findRow u (upsertAll now items s)).map (·.firstScrapedAt) = some now
  | [], _, _, hin => absurd hin (by simp)
  | i :: rest, s, hnone, hin => by
      rw [upsertAll_cons]
      by_cases hu : u = i.url
      · subst hu
        have h3 := upsertOne_findRow_insert now i s hnone
        have h4 := upsertAll_fsa_of_present i.url now rest (upsertOne now i s)
          (by rw [h3]; rfl)
        rw [h4, h3]
        simp [insertRow_fsa]
      · have hin2 : u ∈ rest.map (·.url) := by
          rcases List.mem_map.mp hin with ⟨j, hj, hju⟩
          rcases List.mem_cons.mp hj with rfl | hjr
          · exact absurd hju.symm hu
          · exact List.mem_map.mpr ⟨j, hjr, hju⟩
        exact upsertAll_fsa_of_inserted u now rest (upsertOne now i s)
          (upsertOne_findRow_none u now i s hnone hu) hin2

lemma upsertAll_isSome_of_mem_urls (u : String) (now : Nat)
    (items : List CoffeeItem) (s : List CoffeeRow) (hin : u ∈ items.map (·.url)) :
    (findRow u (upsertAll now items s)).isSome = true := by
  cases hfind : findRow u s with
  | some r =>
      have h1 := upsertAll_fsa_of_present u now items s (by rw [hfind]; rfl)
      rw [hfind] at h1
      cases hres : findRow u (upsertAll now items s) with
      | some r2 => rfl
      | none => rw [hres] at h1; simp at h1
  | none =>
      have h1 := upsertAll_fsa_of_inserted u now items s hfind hin
      cases hres : findRow u (upsertAll now items s) with
      | some r2 => rfl
      | none => rw [hres] at h1; simp at h1

lemma setInactive_fsa (r : CoffeeRow) :
    (if r.isActive then { r with isActive := false } else r).firstScrapedAt =
      r.firstScrapedAt := by
  by_cases h : r.isActive = true <;> simp [h]

/-- C9: `first_scraped_at` is set exactly once — at insertion, to the
insertion instant — and no later `SaveData` of the same URL changes it; in
particular re-running the same batch in a later ingest run (sweep included)
leaves every record's `first_scraped_at` as after the first application. -/
theorem firstScrapedAt_immutable (now1 now2 : Nat) (items : List CoffeeItem)
    (s : List CoffeeRow) (u : String) :
    ((findRow u s).isSome = true →
      (findRow u ((saveData (fun _ => false) now1 items s).1)).map
          (·.firstScrapedAt) =
        (findRow u s).map (·.firstScrapedAt)) ∧
    (findRow u s = none → u ∈ items.map (·.url) →
      (findRow u ((saveData (fun _ => false) now1 items s).1)).map
          (·.firstScrapedAt) = some now1) ∧
    ((findRow u (ingestRun now2 items
          ((saveData (fun _ => false) now1 items s).1))).map (·.firstScrapedAt) =
      (findRow u ((saveData (fun _ => false) now1 items s).1)).map
        (·.firstScrapedAt)) := by
  rw [saveData_ok_state now1 items s]
  refine ⟨upsertAll_fsa_of_present u now1 items s,
    upsertAll_fsa_of_inserted u now1 items s, ?_⟩
  have hrun : ingestRun now2 items (upsertAll now1 items s) =
      upsertAll now2 items (markAllAsInactive (upsertAll now1 items s)) :=
    saveData_ok_state now2 items _
  rw [hrun]
  cases hfind : findRow u (upsertAll now1 items s) with
  | some r =>
      have hm : findRow u (markAllAsInactive (upsertAll now1 items s)) =
          some (if r.isActive then { r with isActive := false } else r) := by
        rw [findRow_markAll_eq, hfind]
        rfl
      have h1 := upsertAll_fsa_of_present u now2 items _ (by rw [hm]; rfl)
      rw [h1, hm]
      simp [setInactive_fsa]
  | none =>
      have hm : findRow u (markAllAsInactive (upsertAll now1 items s)) = none := by
        rw [findRow_markAll_eq, hfind]
        rfl
      have hnotin : u ∉ items.map (·.url) := by
        intro hin
        have hsome := upsertAll_isSome_of_mem_urls u now1 items s hin
        rw [hfind] at hsome
        simp at hsome
      rw [upsertAll_findRow_none u now2 items _ hm hnotin]

/-- A second draft, new to the store, for the C9 witness. -/
def itemNew : CoffeeItem :=
  { url := "https://x/b", name := "B", price := 9, score := 0, origin := "Peru",
    region := "", tastingNotes := "", processing := "", description := "fresh",
    stockStatus := "In Stock" }

/-- Witness for C9: re-upserting an existing URL keeps its
`first_scraped_at`, and a freshly inserted URL gets the run's instant. -/
theorem firstScrapedAt_immutable_witness :
    ((findRow "https://x/a"
        ((saveData (fun _ => false) 7 [itemKept, itemNew] [rowKept]).1)).map
        (·.firstScrapedAt) =
      (findRow "https://x/a" [rowKept]).map (·.firstScrapedAt)) ∧
    ((findRow "https://x/b"
        ((saveData (fun _ => false) 7 [itemKept, itemNew] [rowKept]).1)).map
        (·.firstScrapedAt) = some 7) := by
  refine ⟨(firstScrapedAt_immutable 7 8 [itemKept, itemNew] [rowKept]
      "https://x/a").1 (by decide),
    (firstScrapedAt_immutable 7 8 [itemKept, itemNew] [rowKept]
      "https://x/b").2.1 ?_ (by decide)⟩
  decide

/-! ## Claim C7: ranking order and top-5 truncation -/

lemma perform_eq_take (bitsToVal : Nat → ℚ) (sqrtF : ℚ → ℚ) (q : List ℚ)
    (coffees : List CoffeeVector) :
    perform bitsToVal sqrtF q coffees =
      (List.insertionSort scoreRel (scoredResults bitsToVal sqrtF q coffees)).take 5 := by
  unfold perform
  by_cases h : 5 < (List.insertionSort scoreRel
      (scoredResults bitsToVal sqrtF q coffees)).length
  · rw [if_pos h]
  · rw [if_neg h]
    exact (List.take_of_length_le (by omega)).symm

/-- C7: the search returns results whose scores are non-increasing along the
list — strictly decreasing whenever the returned scores are pairwise
distinct — and the returned list is the 5-element prefix of a full ordering
(a sorted permutation of all decodable scored candidates), so at most the
top 5 are returned.  Stated for every interpretation `bitsToVal` of float
bits and every square root `sqrtF`, hence for the float32 cosine scores. -/
theorem perform_sorted_top5 (bitsToVal : Nat → ℚ) (sqrtF : ℚ → ℚ) (q : List ℚ)
    (coffees : List CoffeeVector) :
    (perform bitsToVal sqrtF q coffees).Pairwise scoreRel ∧
    (perform bitsToVal sqrtF q coffees).length ≤ 5 ∧
    (∃ full : List Result,
      full.Perm (scoredResults bitsToVal sqrtF q coffees) ∧
      full.Pairwise scoreRel ∧
      perform bitsToVal sqrtF q coffees = full.take 5) ∧
    (((perform bitsToVal sqrtF q coffees).map Result.score).Nodup →
      ((perform bitsToVal sqrtF q coffees).map Result.score).Pairwise
        (fun x y => y < x)) := by
  have hsorted : (List.insertionSort scoreRel
      (scoredResults bitsToVal sqrtF q coffees)).Pairwise scoreRel :=
    List.sorted_insertionSort scoreRel (scoredResults bitsToVal sqrtF q coffees)
  have htake := perform_eq_take bitsToVal sqrtF q coffees
  have hpair : (perform bitsToVal sqrtF q coffees).Pairwise scoreRel := by
    rw [htake]
    exact List.Pairwise.sublist (List.take_sublist 5 _) hsorted
  refine ⟨hpair, ?_, ?_, ?_⟩
  · rw [htake, List.length_take]
    omega
  · exact ⟨List.insertionSort scoreRel (scoredResults bitsToVal sqrtF q coffees),
      List.perm_insertionSort scoreRel _, hsorted, htake⟩
  · intro hnodup
    have hne : (perform bitsToVal sqrtF q coffees).Pairwise
        (fun a b => a.score ≠ b.score) := List.pairwise_map.mp hnodup
    have hcomb := List.Pairwise.and hpair hne
    rw [List.pairwise_map]
    exact hcomb.imp fun hab => lt_of_le_of_ne hab.1 (Ne.symm hab.2)

/-- A stored candidate with a decodable 4-byte embedding blob. -/
def sampleCoffee : CoffeeVector :=
  { url := "https://x/a", name := "A", origin := "Kenya", description := "d",
    vector := [2, 0, 0, 0] }

/-- Witness for C7: on a single-candidate store the returned scores are
pairwise distinct, so the strict-descent conclusion applies. -/
theorem perform_sorted_top5_witness :
    ((perform (fun n => (n : ℚ)) id [1] [sampleCoffee]).map Result.score).Pairwise
      (fun x y => y < x) := by
  refine (perform_sorted_top5 (fun n => (n : ℚ)) id [1] [sampleCoffee]).2.2.2 ?_
  have hev : (perform (fun n => (n : ℚ)) id [1] [sampleCoffee]).map Result.score =
      [cosineSimilarity id [1]
        (List.map (fun n => (n : ℚ)) (bytesToFloatsAux [2, 0, 0, 0]))] := rfl
  rw [hev]
  exact List.nodup_singleton _

/-! ## Claim C1: the search-cache key is not normalized (code bug) -/

/-- A deterministic embedding backend for the scenario: always returns the
same one-float vector. -/
def sampleEmbed : String → Option (List Nat) := fun _ => some [1059061760]

/-- C1 (refuting the claim as stated, supporting a code bug): resolving the
query `" Funky "` against an empty cache uses the raw text — not
`toLower (trim ...)` = `"funky"` — as the key for both the lookup and the
save, so the saved entry's key is `" Funky "`; a repeat of the same query in
different case (`"funky"`, exactly the normalized form) misses the cache and
triggers a second backend call, contradicting the claimed invariant. -/
theorem queryCache_key_not_normalized :
    normalizeQuery " Funky " = "funky" ∧
    (getQueryVector sampleEmbed [] " Funky ").backendCalled = true ∧
    (getQueryVector sampleEmbed [] " Funky ").cache =
      [(" Funky ", floatsToBytes [1059061760])] ∧
    (getQueryVector sampleEmbed
        (getQueryVector sampleEmbed [] " Funky ").cache
        "funky").backendCalled = true := by
  decide

end BrewBuddy
